import Mathlib

/-!
Verification of the `dradtke/mtg` Go library against its specification.

The Go sources (`deck.go`, `card.go`) are shallowly embedded below.  Go
strings are modelled as `List Char` (`Str`); Go maps are modelled as
association lists whose insertion order stands in for the (unspecified)
map iteration order; Go `int` is modelled as `Int`; fallible Go code
returns `Except`/`Option`, and a Go nil-pointer dereference (a panic)
is modelled as a hard error.  The network and HTML-parsing collaborators
are passed in as explicit oracles (`fetch`, `resolve`), matching the
spec's treatment of them as external collaborators.
-/

namespace Mtg

abbrev Str := List Char

/-- Whitespace test used by `strings.TrimSpace` / `strings.Fields`
(restricted to the ASCII whitespace characters, which are the only ones
appearing in the deck-list format). -/
def isSpace (c : Char) : Bool :=
  c == ' ' || c == '\t' || c == '\n' || c == '\r' || c == '\x0b' || c == '\x0c'

/-- Model of Go `strings.TrimSpace`. -/
def trimSpace (s : Str) : Str :=
  ((s.dropWhile isSpace).reverse.dropWhile isSpace).reverse

/-- Split a character list at every character satisfying `p`, keeping
empty fields (the semantics of Go `strings.Split` for one-character
separators, generalised to a predicate). -/
def splitP (p : Char → Bool) : Str → List Str
  | [] => [[]]
  | c :: t =>
    if p c then [] :: splitP p t
    else
      match splitP p t with
      | [] => [[c]]
      | h :: r => (c :: h) :: r

/-- Model of Go `strings.Split(s, sep)` for a one-character separator. -/
def splitSep (sep : Char) (s : Str) : List Str :=
  splitP (fun c => c == sep) s

/-- Model of Go `strings.Join(parts, sep)` for a one-character separator. -/
def joinSep (sep : Char) : List Str → Str
  | [] => []
  | [x] => x
  | x :: r => x ++ sep :: joinSep sep r

/-- Model of Go `strings.Fields`: whitespace-separated fields, no empties. -/
def goFields (s : Str) : List Str :=
  (splitP isSpace s).filter (fun f => f != [])

/-- Model of Go `strings.HasSuffix`. -/
def strEndsWith (s suf : Str) : Bool :=
  suf.length ≤ s.length && s.drop (s.length - suf.length) == suf

def digitVal (c : Char) : Nat := c.toNat - 48

def digitsToNat (s : Str) : Nat :=
  s.foldl (fun a c => a * 10 + digitVal c) 0

/-- Error values produced by Go `strconv.Atoi` (a `*strconv.NumError`
carrying the parsed string): either a syntax error or a range error. -/
inductive AtoiErr where
  | syn (s : Str)
  | range (s : Str)
deriving DecidableEq

def int64Max : Int := 9223372036854775807

def int64Min : Int := -9223372036854775808

/-- Model of Go `strconv.Atoi` (64-bit `int`): returns the Go pair
(value, error).  An optional sign followed by decimal digits parses; on
a syntax error the value is 0, on a range error the value is clamped to
the nearest representable `int64`, exactly as `strconv.ParseInt` does. -/
def goAtoi (s : Str) : Int × Option AtoiErr :=
  let neg : Bool := s.head? == some '-'
  let digits : Str :=
    if s.head? == some '-' || s.head? == some '+' then s.tail else s
  if digits == [] || !digits.all Char.isDigit then (0, some (.syn s))
  else
    let v : Int := if neg then -(digitsToNat digits : Int) else (digitsToNat digits : Int)
    if v > int64Max then (int64Max, some (.range s))
    else if v < int64Min then (int64Min, some (.range s))
    else (v, none)

/-- The decimal digit character for `n < 10`. -/
def digitChr (n : Nat) : Char :=
  match n with
  | 0 => '0' | 1 => '1' | 2 => '2' | 3 => '3' | 4 => '4'
  | 5 => '5' | 6 => '6' | 7 => '7' | 8 => '8' | _ => '9'

/-- Decimal rendering of a `Nat`, fuelled (the fuel `n + 1` always
suffices since the value shrinks by a factor of ten each step). -/
def natDecAux : Nat → Nat → Str
  | 0, _ => []
  | fuel + 1, n =>
    if n < 10 then [digitChr n]
    else natDecAux fuel (n / 10) ++ [digitChr (n % 10)]

/-- Model of Go `%d` formatting of a non-negative value. -/
def natDec (n : Nat) : Str := natDecAux (n + 1) n

/-- Model of Go `%d` formatting of an `int`. -/
def intDec (i : Int) : Str :=
  if i < 0 then '-' :: natDec i.natAbs else natDec i.natAbs

/-! ## Card (card.go) -/

/-- `Card` from card.go.  `CardType` models the Go field `Type` (not a
legal Lean field name); all other field names are the Go ones. -/
structure Card where
  MultiverseID : Int
  Name : Str
  ManaCost : Str
  ConvertedManaCost : Int
  CardType : Str
  Text : Str
  Rarity : Str
deriving DecidableEq

/-- The Go zero value `Card\x7b\x7d`. -/
def Card.zero : Card := ⟨0, [], [], 0, [], [], []⟩

/-! ## Deck parsing (deck.go) -/

/-- Errors surfaced by `NewDeck`'s line loop: the `fmt.Errorf` from
`parseCardLine` (carrying the offending line) or an error returned by
`strconv.Atoi`. -/
inductive DeckErr where
  | malformedLine (line : Str)
  | atoiErr (e : AtoiErr)
deriving DecidableEq

/-- Match of the regular expression `decLineRe`, namely
one-or-more digits, a single space, and a non-empty remainder (`.`
does not match a newline); returns the two capture groups. -/
def decLineMatch (line : Str) : Option (Str × Str) :=
  let digits := line.takeWhile Char.isDigit
  match line.drop digits.length with
  | ' ' :: rest =>
    if digits == [] || rest == [] || rest.contains '\n' then none
    else some (digits, rest)
  | _ => none

/-- `parseCardLine` from deck.go. -/
def parseCardLine (line : Str) : Except DeckErr (Int × Str) :=
  match decLineMatch line with
  | none => .error (.malformedLine line)
  | some (digits, name) =>
    match goAtoi digits with
    | (_, some e) => .error (.atoiErr e)
    | (n, none) => .ok (n, name)

/-- One iteration of `NewDeck`'s scanner loop on a raw line: `none`
means the line is skipped (blank after trimming); otherwise the result
is the sideboard flag together with the line handed to `parseCardLine`. -/
def procLine (line : Str) : Option (Bool × Str) :=
  let t := trimSpace line
  if t == [] then none
  else if t.length > 3 && t.take 3 == "SB:".toList then some (true, trimSpace (t.drop 3))
  else some (false, t)

/-- Association-list model of a Go `map[string]int`; insertion order
models the unspecified map iteration order. -/
abbrev Counts := List (Str × Int)

/-- Model of `m[k] += n` on a `map[string]int`. -/
def addCount (m : Counts) (k : Str) (n : Int) : Counts :=
  match m with
  | [] => [(k, n)]
  | (k0, n0) :: t => if k0 == k then (k0, n0 + n) :: t else (k0, n0) :: addCount t k n

/-- Map lookup with the Go zero-value default. -/
def lookupCount (m : Counts) (k : Str) : Int :=
  match m with
  | [] => 0
  | (k0, n0) :: t => if k0 == k then n0 else lookupCount t k

/-- The line loop of `NewDeck`, accumulating the `main` and `sideboard`
string-keyed count maps. -/
def parseLinesAux : List Str → Counts → Counts → Except DeckErr (Counts × Counts)
  | [], m, s => .ok (m, s)
  | l :: rest, m, s =>
    match procLine l with
    | none => parseLinesAux rest m s
    | some (isSB, content) =>
      match parseCardLine content with
      | .error e => .error e
      | .ok (n, name) =>
        if isSB then parseLinesAux rest m (addCount s name n)
        else parseLinesAux rest (addCount m name n) s

/-- The pure first phase of `NewDeck`: scan the text line by line
(`bufio.Scanner` with newline splitting) into the two name-to-count
maps. -/
def parseDec (text : Str) : Except DeckErr (Counts × Counts) :=
  parseLinesAux (splitSep '\n' text) [] []

/-- Association-list model of the Go `map[Card]int`. -/
abbrev CardCounts := List (Card × Int)

/-- Model of `m[c] += n` on a `map[Card]int`. -/
def addCardCount (m : CardCounts) (c : Card) (n : Int) : CardCounts :=
  match m with
  | [] => [(c, n)]
  | (c0, n0) :: t => if c0 == c then (c0, n0 + n) :: t else (c0, n0) :: addCardCount t c n

/-- `Deck` from deck.go. -/
structure Deck where
  Main : CardCounts
  Sideboard : CardCounts

/-- The merge phase of `NewDeck`: each parsed name is resolved through
`GetCardForName` (abstracted as the `resolve` oracle); on failure the
name is dropped with a diagnostic, on success `deck[card] += count`.
The concurrent tasks are modelled sequentially: the final map contents
are order-independent sums, and the wait group guarantees completion
before the deck is returned. -/
def assemble (resolve : Str → Option Card) (counts : Counts) : CardCounts :=
  counts.foldl
    (fun acc p =>
      match resolve p.1 with
      | none => acc
      | some c => addCardCount acc c p.2)
    []

/-- `NewDeck` from deck.go, with `GetCardForName` abstracted as the
`resolve` oracle and the reader's contents given as `text`. -/
def NewDeck (resolve : Str → Option Card) (text : Str) : Except DeckErr Deck :=
  match parseDec text with
  | .error e => .error e
  | .ok (m, s) => .ok ⟨assemble resolve m, assemble resolve s⟩

/-! ## Deck rendering (deck.go, `Deck.String`) -/

/-- Go `fmt` applied with the `%s` verb to an `int` field: the bad-verb
output `%!s(int=N)`. -/
def badVerbInt (i : Int) : Str :=
  "%!s(int=".toList ++ intDec i ++ [')']

/-- Go `fmt` applied with the `%s` verb to a `Card` value.  `Card` has
no `String` method, so `fmt` prints the struct: the fields in order,
separated by single spaces, inside braces, string fields verbatim and
`int` fields as `%!s(int=N)`. -/
def goFormatCard (c : Card) : Str :=
  '\x7b' :: (badVerbInt c.MultiverseID ++ ' ' :: c.Name ++ ' ' :: c.ManaCost
    ++ ' ' :: badVerbInt c.ConvertedManaCost ++ ' ' :: c.CardType
    ++ ' ' :: c.Text ++ ' ' :: c.Rarity ++ ['\x7d'])

/-- One `fmt.Sprintf("%d %s\n", n, c)` line of `Deck.String`. -/
def entryLine (c : Card) (n : Int) : Str :=
  intDec n ++ ' ' :: goFormatCard c ++ ['\n']

/-- `Deck.String` from deck.go: the Main lines, then — only when the
sideboard is non-empty — a blank line, the `Sideboard:` header and the
Sideboard lines. -/
def Deck.render (d : Deck) : Str :=
  let buf := d.Main.foldl (fun buf p => buf ++ entryLine p.1 p.2) []
  if d.Sideboard.length > 0 then
    d.Sideboard.foldl (fun buf p => buf ++ entryLine p.1 p.2)
      (buf ++ "\nSideboard:\n".toList)
  else buf

/-- The name-to-count mapping of a card-keyed map (used to compare
decks per card name, as the round-trip property asks). -/
def nameCounts (entries : CardCounts) : Counts :=
  entries.foldl (fun acc p => addCount acc p.1.Name p.2) []

/-! ## Deck queries and validation (deck.go) -/

/-- `Deck.Size`: the sum of the Main counts. -/
def Deck.Size (d : Deck) : Int :=
  d.Main.foldl (fun acc p => acc + p.2) 0

/-- The errors returned by `Deck.Validate`: `ErrDeckTooSmall`,
`ErrCardLimitExceeded\x7bCard\x7d`, or the unknown-format error. -/
inductive ValErr where
  | deckTooSmall
  | cardLimitExceeded (card : Str)
  | unknownFormat
deriving DecidableEq

/-- The `Format` constant `Constructed` (iota value 1). -/
def Constructed : Int := 1

/-- The `Format` constant `Limited` (iota value 2). -/
def Limited : Int := 2

/-- `Deck.Validate` from deck.go; `none` is the nil (success) return.
The first map entry (in the modelled iteration order) whose count
exceeds 4 is reported; there is no basic-land exemption (the source
marks this with a TODO). -/
def Deck.Validate (d : Deck) (format : Int) : Option ValErr :=
  if format == Constructed then
    if d.Size < 60 then some .deckTooSmall
    else
      match d.Main.find? (fun p => p.2 > 4) with
      | some p => some (.cardLimitExceeded p.1.Name)
      | none => none
  else if format == Limited then
    if d.Size < 40 then some .deckTooSmall else none
  else some .unknownFormat

/-! ## Reference resolution (card.go, `resolvePath`) -/

/-- `base[:strings.LastIndex(base, "/")+1]`: the base path up to and
including its last slash (empty when the base has no slash). -/
def takeToLastSlash (base : Str) : Str :=
  ((base.reverse.dropWhile (fun c => c != '/')).reverse)

/-- `resolvePath` from card.go. -/
def resolvePath (base ref : Str) : Str :=
  let full :=
    if ref == [] then base
    else if ref.head? != some '/' then takeToLastSlash base ++ ref
    else ref
  if full == [] then []
  else
    let src := splitSep '/' full
    let dst := src.foldl
      (fun dst elem =>
        if elem == ".".toList then dst
        else if elem == "..".toList then dst.dropLast
        else dst ++ [elem])
      ([] : List Str)
    let dst :=
      if src.getLast? == some ".".toList || src.getLast? == some "..".toList then dst ++ [[]]
      else dst
    '/' :: (joinSep '/' dst).dropWhile (fun c => c == '/')

/-! ## HTML node trees and tree search (card.go) -/

/-- The node kinds of `golang.org/x/net/html` that the code inspects. -/
inductive NType where
  | elementNode
  | textNode
  | otherNode
deriving DecidableEq

/-- A parsed markup node: kind, `Data`, attributes, and children in
document order (`FirstChild`/`NextSibling` in the Go representation). -/
inductive Node where
  | mk (ty : NType) (data : Str) (attr : List (Str × Str)) (children : List Node)

def Node.ty : Node → NType
  | .mk t _ _ _ => t

def Node.data : Node → Str
  | .mk _ d _ _ => d

def Node.attr : Node → List (Str × Str)
  | .mk _ _ a _ => a

def Node.children : Node → List Node
  | .mk _ _ _ cs => cs

mutual
/-- The number of nodes in a tree (used as loop fuel for the
breadth-first queue, which dequeues each reachable node exactly once). -/
def Node.size : Node → Nat
  | .mk _ _ _ cs => 1 + Node.sizeL cs

/-- Total number of nodes in a forest. -/
def Node.sizeL : List Node → Nat
  | [] => 0
  | n :: t => Node.size n + Node.sizeL t
end

/-- `getAttr` from card.go: the value of the first attribute with the
given key, or the empty string. -/
def getAttr (attrs : List (Str × Str)) (name : Str) : Str :=
  match attrs with
  | [] => []
  | (k, v) :: t => if k == name then v else getAttr t name

/-- `nodeHasClass` from card.go. -/
def nodeHasClass (n : Node) (cls : Str) : Bool :=
  (goFields (getAttr n.attr "class".toList)).any (fun c => c == cls)

/-- `nodeIdHasSuffix` from card.go. -/
def nodeIdHasSuffix (suffix : Str) (n : Node) : Bool :=
  strEndsWith (getAttr n.attr "id".toList) suffix

/-- The queue loop of `nodeSearch`: dequeue a node, test it, and
enqueue its children.  The loop runs at most once per reachable node,
so the fuel argument (instantiated with the tree size) never runs out. -/
def nodeSearchAux (p : Node → Bool) (stopAtOne : Bool) : Nat → List Node → List Node
  | _, [] => []
  | 0, _ => []
  | fuel + 1, n :: rest =>
    if p n then
      if stopAtOne then [n]
      else n :: nodeSearchAux p stopAtOne fuel (rest ++ n.children)
    else nodeSearchAux p stopAtOne fuel (rest ++ n.children)

/-- `nodeSearch` from card.go. -/
def nodeSearch (root : Node) (p : Node → Bool) (stopAtOne : Bool) : List Node :=
  nodeSearchAux p stopAtOne (Node.size root) [root]

/-- `findNode` from card.go (`none` models the nil return). -/
def findNode (root : Node) (p : Node → Bool) : Option Node :=
  (nodeSearch root p true).head?

/-- `findAllNodes` from card.go. -/
def findAllNodes (root : Node) (p : Node → Bool) : List Node :=
  nodeSearch root p false

/-- The specification's breadth-first visitation order, written level
by level: visit the whole pending level, then all of its children. -/
def levelOrderAux : Nat → List Node → List Node
  | _, [] => []
  | 0, _ => []
  | fuel + 1, q => q ++ levelOrderAux fuel (q.flatMap Node.children)

/-- Level-by-level visitation order from the root. -/
def levelOrder (root : Node) : List Node :=
  levelOrderAux (Node.size root) [root]

/-! ## Card extraction (card.go, `parseCard`) -/

/-- How `parseCard` fails: the explicit "no cardDetails table found"
error, or a Go nil-pointer dereference (a panic) while reading through
an absent row/value/child node. -/
inductive CardErr where
  | noCardDetails
  | nilDeref
deriving DecidableEq

/-- The predicate locating the details container: an element `table`
with class token `cardDetails`. -/
def cardDetailsPred (n : Node) : Bool :=
  n.ty == NType.elementNode && n.data == "table".toList
    && nodeHasClass n "cardDetails".toList

/-- The predicate of `getRowValue`: any node with class token `value`. -/
def valuePred (n : Node) : Bool :=
  nodeHasClass n "value".toList

/-- `getRowValue` from `parseCard`, applied to a possibly-nil row
pointer: `findNode(nil, pred)` evaluates the predicate on nil and
panics, so a nil row is a hard failure; otherwise the lookup of the
nested element of class `value` (which may itself be nil). -/
def getRowValue (row : Option Node) : Except CardErr (Option Node) :=
  match row with
  | none => .error .nilDeref
  | some r => .ok (findNode r valuePred)

/-- The mana-cost loop of `parseCard`: for each sibling, read the
`alt` attribute; an integer label is appended verbatim, a colour word
maps to its one-letter code, anything else is skipped. -/
def manaParts : List Node → Str
  | [] => []
  | c :: rest =>
    let part := getAttr c.attr "alt".toList
    let sym : Str :=
      if (goAtoi part).2 == none then part
      else
        let up := part.map Char.toUpper
        if up == "WHITE".toList then ['W']
        else if up == "BLUE".toList then ['U']
        else if up == "BLACK".toList then ['B']
        else if up == "RED".toList then ['R']
        else if up == "GREEN".toList then ['G']
        else []
    sym ++ manaParts rest

/-- The name-row read `strings.TrimSpace(getRowValue(nameRow).FirstChild.Data)`:
the row pointer may be nil (panic inside `getRowValue`), the located
value node may be nil (panic at `.FirstChild`), and its first child may
be nil (panic at `.Data`). -/
def extractName (row : Option Node) : Except CardErr Str :=
  match getRowValue row with
  | .error e => .error e
  | .ok none => .error .nilDeref
  | .ok (some v) =>
    match v.children.head? with
    | none => .error .nilDeref
    | some fc => .ok (trimSpace fc.data)

/-- The guarded mana-row read: skipped when the row is absent;
otherwise `getRowValue(manaRow).FirstChild` is dereferenced (panicking
on a nil value node or nil first child) and the loop walks the
remaining siblings. -/
def extractMana : Option Node → Except CardErr Str
  | none => .ok []
  | some m =>
    match findNode m valuePred with
    | none => .error .nilDeref
    | some v =>
      match v.children.head? with
      | none => .error .nilDeref
      | some _ => .ok (manaParts (v.children.drop 1))

/-- The guarded converted-cost read: absent row leaves 0; a present row
reads `getRowValue(cmcRow).FirstChild.Data` through `strconv.Atoi`,
keeping 0 on a parse error. -/
def extractCmc : Option Node → Except CardErr Int
  | none => .ok 0
  | some r =>
    match findNode r valuePred with
    | none => .error .nilDeref
    | some v =>
      match v.children.head? with
      | none => .error .nilDeref
      | some fc => .ok (if (goAtoi fc.data).2 = none then (goAtoi fc.data).1 else 0)

/-- The guarded type-row read: `TrimSpace(getRowValue(typeRow).FirstChild.Data)`. -/
def extractType : Option Node → Except CardErr Str
  | none => .ok []
  | some r =>
    match findNode r valuePred with
    | none => .error .nilDeref
    | some v =>
      match v.children.head? with
      | none => .error .nilDeref
      | some fc => .ok (trimSpace fc.data)

/-- The guarded text-row read:
`TrimSpace(getRowValue(textRow).FirstChild.NextSibling.FirstChild.Data)`. -/
def extractText : Option Node → Except CardErr Str
  | none => .ok []
  | some r =>
    match findNode r valuePred with
    | none => .error .nilDeref
    | some v =>
      match v.children.head? with
      | none => .error .nilDeref
      | some _ =>
        match v.children.get? 1 with
        | none => .error .nilDeref
        | some sib =>
          match sib.children.head? with
          | none => .error .nilDeref
          | some sfc => .ok (trimSpace sfc.data)

/-- `parseCard` from card.go: locate the details container, then read
the name, mana, converted-cost, type and text rows in source order. -/
def parseCard (doc : Node) : Except CardErr Card :=
  match findNode doc cardDetailsPred with
  | none => .error .noCardDetails
  | some t =>
    match extractName (findNode t (nodeIdHasSuffix "_nameRow".toList)) with
    | .error e => .error e
    | .ok cName =>
      match extractMana (findNode t (nodeIdHasSuffix "_manaRow".toList)) with
      | .error e => .error e
      | .ok cMana =>
        match extractCmc (findNode t (nodeIdHasSuffix "_cmcRow".toList)) with
        | .error e => .error e
        | .ok cCmc =>
          match extractType (findNode t (nodeIdHasSuffix "_typeRow".toList)) with
          | .error e => .error e
          | .ok cType =>
            match extractText (findNode t (nodeIdHasSuffix "_textRow".toList)) with
            | .error e => .error e
            | .ok cText =>
              .ok { MultiverseID := 0, Name := cName, ManaCost := cMana,
                    ConvertedManaCost := cCmc, CardType := cType,
                    Text := cText, Rarity := [] }

/-! ## Card resolution (card.go, `GetCardForName`) -/

/-- The observable outcome of `makeGathererRequest` for a name: the
final response after redirect-following and search-result navigation,
reduced to what `GetCardForName` reads from it — the `multiverseid`
query parameter of the final URL (empty when absent) and the parsed
body tree. -/
structure Page where
  multiverseidParam : Str
  body : Node

/-- Errors surfaced by `GetCardForName`. -/
inductive GoErr where
  | transport (msg : Str)
  | parseErr (e : CardErr)
  | atoiErr (e : AtoiErr)
deriving DecidableEq

/-- The process-wide card cache `cardCache`. -/
abbrev Cache := List (Str × Card)

def cacheLookup : Cache → Str → Option Card
  | [], _ => none
  | (k, c) :: t, name => if k == name then some c else cacheLookup t name

def cacheInsert (cache : Cache) (k : Str) (c : Card) : Cache :=
  match cache with
  | [] => [(k, c)]
  | (k0, c0) :: t => if k0 == k then (k, c) :: t else (k0, c0) :: cacheInsert t k c

/-- `GetCardForName` from card.go, with the network/navigation part
(`makeGathererRequest` plus `html.Parse` of the body) abstracted as the
`fetch` oracle.  Returns the updated cache together with the Go return
pair (Card, error).  Note the source assigns both `card.MultiverseID`
and `err` from `strconv.Atoi` and still stores and returns the card. -/
def GetCardForName (fetch : Str → Except Str Page) (cache : Cache) (name : Str) :
    Cache × Card × Option GoErr :=
  match cacheLookup cache name with
  | some card => (cache, card, none)
  | none =>
    match fetch name with
    | .error e => (cache, Card.zero, some (.transport e))
    | .ok page =>
      match parseCard page.body with
      | .error e => (cache, Card.zero, some (.parseErr e))
      | .ok card =>
        let res : Card × Option GoErr :=
          if page.multiverseidParam = [] then (card, none)
          else
            match goAtoi page.multiverseidParam with
            | (v, none) => ({ card with MultiverseID := v }, none)
            | (v, some e) => ({ card with MultiverseID := v }, some (.atoiErr e))
        (cacheInsert cache name res.1, res.1, res.2)

/-! ## Example data shared by witnesses and counterexamples -/

/-- A resolved basic land, as `parseCard` would build it. -/
def forestCard : Card := ⟨0, "Forest".toList, [], 0, "Basic Land".toList, [], []⟩

/-- Another card, distinct from `forestCard`. -/
def islandCard : Card := ⟨0, "Island".toList, [], 0, "Basic Land".toList, [], []⟩

/-- A third card, distinct from the others. -/
def swampCard : Card := ⟨0, "Swamp".toList, [], 0, "Basic Land".toList, [], []⟩

/-- A resolver oracle that knows exactly the card named `Forest`. -/
def resolveForest (n : Str) : Option Card :=
  if n == "Forest".toList then some forestCard else none

/-! ## C4 — resolvePath reference-resolution examples -/

/-- Claim C4 (counterexample): the claim states that resolving
`Details.aspx?x=1` against `/Pages/Search/Default.aspx` yields
`/Pages/Details.aspx?x=1`; the code in fact keeps the `Search` segment
and yields `/Pages/Search/Details.aspx?x=1`. -/
theorem C4_counterexample :
    resolvePath "/Pages/Search/Default.aspx".toList "Details.aspx?x=1".toList
      = "/Pages/Search/Details.aspx?x=1".toList ∧
    "/Pages/Search/Details.aspx?x=1".toList ≠ "/Pages/Details.aspx?x=1".toList :=
  ⟨rfl, by decide⟩

/-- Claim C4 (amended): resolvePath applied to base
`/Pages/Search/Default.aspx` and reference `Details.aspx?x=1` returns
`/Pages/Search/Details.aspx?x=1` (the last base segment is replaced,
the `Search` directory is kept), and resolvePath applied to base
`/a/b/c` and reference `../d` returns `/a/d`. -/
theorem C4_theorem :
    resolvePath "/Pages/Search/Default.aspx".toList "Details.aspx?x=1".toList
      = "/Pages/Search/Details.aspx?x=1".toList ∧
    resolvePath "/a/b/c".toList "../d".toList = "/a/d".toList :=
  ⟨rfl, rfl⟩

/-! ## C5 — resolvePath with an empty reference -/

/-- Claim C5 (counterexample): the claim states that an empty reference
returns the base unchanged for every base; but the code still
normalizes the base, so `/a/./b` comes back as `/a/b`. -/
theorem C5_counterexample :
    resolvePath "/a/./b".toList [] = "/a/b".toList ∧
    "/a/b".toList ≠ "/a/./b".toList :=
  ⟨rfl, by decide⟩

/-! ## C2 — the shape of Deck.String output -/

/-- Claim C2: the claim (and spec §6) say each Main entry is emitted as
`<count> <name>` with `<name>` the card's Name; the code instead passes
the whole `Card` struct to the `%s` verb, so the emitted line is
`<count> \x7b%!s(int=0) Forest  %!s(int=0) Basic Land  \x7d` — the Go
default struct rendering, not the name.  Evaluating the code at the
failing input (a deck of four Forests, empty sideboard) shows the
divergence. -/
theorem C2_theorem :
    Deck.render ⟨[(forestCard, 4)], []⟩
      = "4 ".toList ++ goFormatCard forestCard ++ ['\n'] ∧
    goFormatCard forestCard
      = "\x7b%!s(int=0) Forest  %!s(int=0) Basic Land  \x7d".toList ∧
    Deck.render ⟨[(forestCard, 4)], []⟩ ≠ "4 Forest\n".toList :=
  ⟨rfl, rfl, by decide⟩

/-! ## C3 — deck counts are at least one, accumulation -/

/-- Claim C3 (counterexample): `decLineRe` accepts a zero count, so the
line `0 Forest` puts an entry with count 0 — not at least 1 — into the
Main map of the deck returned by NewDeck. -/
theorem C3_counterexample :
    NewDeck resolveForest "0 Forest".toList = .ok ⟨[(forestCard, 0)], []⟩ ∧
    ¬ (1 ≤ lookupCount (nameCounts [(forestCard, 0)]) "Forest".toList) :=
  ⟨rfl, by decide⟩

/-! ## C9 — malformed-line errors -/

/-- Claim C9 (counterexample): a line whose leading digits overflow the
64-bit integer range matches the pattern but fails `strconv.Atoi`; the
returned error is the Atoi range error carrying only the digit run, not
a MalformedLine error carrying the offending line. -/
theorem C9_counterexample :
    NewDeck resolveForest "99999999999999999999 Swamp".toList
      = .error (.atoiErr (.range "99999999999999999999".toList)) ∧
    DeckErr.atoiErr (.range "99999999999999999999".toList)
      ≠ .malformedLine "99999999999999999999 Swamp".toList :=
  ⟨rfl, by decide⟩

/-! ## C8 — parseCard and empty names -/

/-- A detail-page tree whose name row is present but whose value text
is a single space: the extracted Name trims to the empty string. -/
def wsNameDoc : Node :=
  .mk .elementNode "table".toList [("class".toList, "cardDetails".toList)]
    [.mk .elementNode "tr".toList [("id".toList, "x_nameRow".toList)]
      [.mk .elementNode "td".toList [("class".toList, "value".toList)]
        [.mk .textNode " ".toList [] []]]]

/-- A details container with no name row at all. -/
def noNameDoc : Node :=
  .mk .elementNode "table".toList [("class".toList, "cardDetails".toList)] []

/-- Claim C8 (counterexample): the claim states a Card with an empty
Name is never returned; but on a tree whose name row holds only
whitespace, `parseCard` succeeds and returns the zero Card, whose Name
is empty. -/
theorem C8_counterexample :
    parseCard wsNameDoc = .ok Card.zero ∧ Card.zero.Name = [] :=
  ⟨rfl, rfl⟩

/-- Claim C8 (amended): when the name row is absent inside the located
details container, `parseCard` fails hard (the Go code dereferences a
nil node inside `getRowValue`, a panic, modelled as `nilDeref`) and
returns no Card; a Card with an empty Name can still be returned when
the name row is present but its value text is whitespace-only. -/
theorem C8_theorem (doc table : Node)
    (ht : findNode doc cardDetailsPred = some table)
    (hn : findNode table (nodeIdHasSuffix "_nameRow".toList) = none) :
    parseCard doc = .error .nilDeref := by
  simp only [parseCard, ht, hn, extractName, getRowValue]

/-- Claim C8 (witness): the amended theorem applied to a concrete
details container with no name row. -/
theorem C8_witness : parseCard noNameDoc = .error .nilDeref :=
  C8_theorem noNameDoc noNameDoc rfl rfl

/-! ## C10 — GetCardForName with an unparsable multiverseid -/

/-- Inserting then looking up the same key finds the inserted card. -/
theorem cacheLookup_cacheInsert (cache : Cache) (k : Str) (c : Card) :
    cacheLookup (cacheInsert cache k c) k = some c := by
  induction cache with
  | nil => simp [cacheInsert, cacheLookup]
  | cons p t ih =>
    by_cases h : p.1 == k
    · simp [cacheInsert, cacheLookup, h]
    · simp [cacheInsert, cacheLookup, h, ih]

/-- Claim C10: when the fetched page parses and its final URL carries a
non-empty `multiverseid` query parameter on which `strconv.Atoi`
errors, `GetCardForName` still stores the extracted card (with the Atoi
result as its MultiverseID) in the cache under the queried name and
returns it together with the non-nil error; a second call for the same
name then hits the cache and succeeds with no error. -/
theorem C10_theorem (fetch : Str → Except Str Page) (cache : Cache) (name : Str)
    (page : Page) (card : Card) (e : AtoiErr)
    (hc : cacheLookup cache name = none)
    (hf : fetch name = .ok page)
    (hp : parseCard page.body = .ok card)
    (hm : page.multiverseidParam ≠ [])
    (ha : (goAtoi page.multiverseidParam).2 = some e) :
    GetCardForName fetch cache name
      = (cacheInsert cache name
           { card with MultiverseID := (goAtoi page.multiverseidParam).1 },
         { card with MultiverseID := (goAtoi page.multiverseidParam).1 },
         some (.atoiErr e)) ∧
    GetCardForName fetch
        (cacheInsert cache name
          { card with MultiverseID := (goAtoi page.multiverseidParam).1 })
        name
      = (cacheInsert cache name
           { card with MultiverseID := (goAtoi page.multiverseidParam).1 },
         { card with MultiverseID := (goAtoi page.multiverseidParam).1 },
         none) := by
  obtain ⟨v, hv⟩ : ∃ v, goAtoi page.multiverseidParam = (v, some e) :=
    ⟨(goAtoi page.multiverseidParam).1, by rw [← ha]⟩
  rw [hv]
  constructor
  · simp only [GetCardForName, hc, hf, hp, if_neg hm, hv]
  · simp only [GetCardForName, cacheLookup_cacheInsert]

/-- The constant fetch oracle used by the C10 witness: every lookup
lands on a detail page whose final URL carries `multiverseid=abc`. -/
def fetchWs (_n : Str) : Except Str Page := .ok ⟨"abc".toList, wsNameDoc⟩

/-- Claim C10 (witness): the theorem applied to an empty cache and the
concrete oracle `fetchWs`. -/
theorem C10_witness :
    GetCardForName fetchWs [] "Forest".toList
      = ([("Forest".toList, Card.zero)], Card.zero,
         some (.atoiErr (.syn "abc".toList))) ∧
    GetCardForName fetchWs [("Forest".toList, Card.zero)] "Forest".toList
      = ([("Forest".toList, Card.zero)], Card.zero, none) :=
  C10_theorem fetchWs [] "Forest".toList ⟨"abc".toList, wsNameDoc⟩ Card.zero
    (.syn "abc".toList) rfl rfl rfl (by decide) rfl

/-! ## C6 — Constructed-format validation -/

/-- Claim C6: `Validate(Constructed)` fails with the deck-too-small
error when `Size() < 60`; otherwise, when some Main entry's count
exceeds 4 (no basic-land exemption), it fails with the card-limit
error carrying such a card's name (the first in iteration order);
and it succeeds exactly when `Size() ≥ 60` and every Main count is at
most 4. -/
theorem C6_theorem (d : Deck) :
    (d.Size < 60 → d.Validate Constructed = some .deckTooSmall) ∧
    (60 ≤ d.Size → (∃ p ∈ d.Main, 4 < p.2) →
      ∃ p ∈ d.Main, 4 < p.2 ∧
        d.Validate Constructed = some (.cardLimitExceeded p.1.Name)) ∧
    (d.Validate Constructed = none ↔ 60 ≤ d.Size ∧ ∀ p ∈ d.Main, p.2 ≤ 4) := by
  have hval : d.Validate Constructed
      = if d.Size < 60 then some .deckTooSmall
        else
          match d.Main.find? (fun p => p.2 > 4) with
          | some p => some (.cardLimitExceeded p.1.Name)
          | none => none := by
    simp [Deck.Validate]
  refine ⟨fun h => by rw [hval, if_pos h], fun hsize hex => ?_, ?_⟩
  · have hsome : (d.Main.find? (fun p => p.2 > 4)).isSome := by
      rw [List.find?_isSome]
      obtain ⟨p, hp, hlt⟩ := hex
      exact ⟨p, hp, by simpa using hlt⟩
    obtain ⟨q, hq⟩ := Option.isSome_iff_exists.mp hsome
    refine ⟨q, List.mem_of_find?_eq_some hq, by simpa using List.find?_some hq, ?_⟩
    rw [hval, if_neg (not_lt.mpr hsize), hq]
  · rw [hval]
    constructor
    · intro h
      by_cases hs : d.Size < 60
      · rw [if_pos hs] at h
        exact absurd h (by simp)
      · rw [if_neg hs] at h
        refine ⟨not_lt.mp hs, fun p hp => ?_⟩
        cases hfind : d.Main.find? (fun p => p.2 > 4) with
        | none =>
          have := List.find?_eq_none.mp hfind p hp
          simpa using this
        | some q => rw [hfind] at h; exact absurd h (by simp)
    · rintro ⟨hs, hall⟩
      rw [if_neg (not_lt.mpr hs)]
      have hnone : d.Main.find? (fun p => p.2 > 4) = none :=
        List.find?_eq_none.mpr (fun p hp => by simpa using hall p hp)
      rw [hnone]

/-- A family of pairwise-distinct cards used to build legal decks. -/
def cardN (i : Nat) : Card := ⟨Int.ofNat i, natDec i, [], 0, [], [], []⟩

/-- A 60-card deck of fifteen distinct four-ofs. -/
def legalDeck : Deck := ⟨(List.range 15).map (fun i => (cardN i, 4)), []⟩

/-- Claim C6 (witness): the theorem applied to concrete decks — a
59-card deck is too small, a 60-card deck of four-ofs validates, and a
deck with 61 Swamps reports the limit error for `Swamp`. -/
theorem C6_witness :
    Deck.Validate ⟨[(forestCard, 59)], []⟩ Constructed = some .deckTooSmall ∧
    Deck.Validate legalDeck Constructed = none ∧
    Deck.Validate ⟨[(swampCard, 61)], []⟩ Constructed
      = some (.cardLimitExceeded swampCard.Name) := by
  refine ⟨(C6_theorem ⟨[(forestCard, 59)], []⟩).1 (by decide),
    (C6_theorem legalDeck).2.2.mpr ⟨by decide, by decide⟩, ?_⟩
  obtain ⟨p, hp, hlt, hval⟩ :=
    (C6_theorem ⟨[(swampCard, 61)], []⟩).2.1 (by decide)
      ⟨(swampCard, 61), by decide, by decide⟩
  have hps : p = (swampCard, 61) := List.mem_singleton.mp hp
  rwa [hps] at hval

/-! ## C7 — breadth-first tree search -/

/-- A forest has size zero exactly when it is empty. -/
theorem sizeL_eq_zero {q : List Node} : Node.sizeL q = 0 ↔ q = [] := by
  cases q with
  | nil => simp [Node.sizeL]
  | cons n rest =>
    simp only [Node.sizeL]
    cases n with
    | mk ty d a cs => simp [Node.size]

/-- Forest size is additive across append. -/
theorem sizeL_append (a b : List Node) :
    Node.sizeL (a ++ b) = Node.sizeL a + Node.sizeL b := by
  induction a with
  | nil => simp [Node.sizeL]
  | cons n rest ih => simp [Node.sizeL, ih]; omega

/-- Dequeuing a node and enqueuing its children shrinks the total
queue size by exactly one. -/
theorem sizeL_cons (n : Node) (rest : List Node) :
    Node.sizeL (n :: rest) = Node.sizeL (rest ++ n.children) + 1 := by
  cases n with
  | mk ty d a cs =>
    simp only [Node.sizeL, Node.size, Node.children, sizeL_append]
    omega

/-- The queue loop result does not depend on the fuel, as long as the
fuel covers the total queue size. -/
theorem nodeSearchAux_fuel (p : Node → Bool) (stopAtOne : Bool) :
    ∀ f g q, Node.sizeL q ≤ f → Node.sizeL q ≤ g →
      nodeSearchAux p stopAtOne f q = nodeSearchAux p stopAtOne g q := by
  intro f
  induction f with
  | zero =>
    intro g q hf _
    have hq : q = [] := sizeL_eq_zero.mp (Nat.le_zero.mp hf)
    subst hq
    cases g <;> rfl
  | succ f ih =>
    intro g q hf hg
    cases q with
    | nil => cases g <;> rfl
    | cons n rest =>
      have hq := sizeL_cons n rest
      cases g with
      | zero => exact absurd hg (by omega)
      | succ g =>
        have h1 : Node.sizeL (rest ++ n.children) ≤ f := by omega
        have h2 : Node.sizeL (rest ++ n.children) ≤ g := by omega
        simp only [nodeSearchAux]
        rw [ih g (rest ++ n.children) h1 h2]

/-- The full visitation order of the queue loop (the predicate that
accepts everything, never stopping). -/
def visit (q : List Node) : List Node :=
  nodeSearchAux (fun _ => true) false (Node.sizeL q) q

/-- One step of the visitation order: the queue head is visited, its
children are enqueued at the back. -/
theorem visit_cons (n : Node) (rest : List Node) :
    visit (n :: rest) = n :: visit (rest ++ n.children) := by
  unfold visit
  rw [sizeL_cons]
  simp [nodeSearchAux]

/-- The visitation order first drains the current queue, then visits
the queued nodes' children. -/
theorem visit_append (a b : List Node) :
    visit (a ++ b) = a ++ visit (b ++ a.flatMap Node.children) := by
  induction a generalizing b with
  | nil => simp
  | cons n a ih =>
    have h1 : (n :: a) ++ b = n :: (a ++ b) := rfl
    rw [h1, visit_cons, List.append_assoc, ih (b ++ n.children)]
    simp [List.append_assoc]

/-- Total size of the children of a forest. -/
theorem sizeL_flatMap (q : List Node) :
    Node.sizeL (q.flatMap Node.children) + q.length = Node.sizeL q := by
  induction q with
  | nil => simp [Node.sizeL]
  | cons n rest ih =>
    cases n with
    | mk ty d a cs =>
      simp only [List.flatMap_cons, sizeL_append, Node.children, Node.sizeL, Node.size,
        List.length_cons] at *
      omega

/-- The queue visitation order equals the level-by-level order. -/
theorem visit_eq_levelOrderAux :
    ∀ f q, Node.sizeL q ≤ f → visit q = levelOrderAux f q := by
  intro f
  induction f with
  | zero =>
    intro q h
    have hq : q = [] := sizeL_eq_zero.mp (Nat.le_zero.mp h)
    subst hq
    rfl
  | succ f ih =>
    intro q h
    cases q with
    | nil => rfl
    | cons n rest =>
      have hv : visit (n :: rest)
          = (n :: rest) ++ visit ((n :: rest).flatMap Node.children) := by
        simpa using visit_append (n :: rest) []
      have hsz := sizeL_flatMap (n :: rest)
      have hle : Node.sizeL ((n :: rest).flatMap Node.children) ≤ f := by
        simp only [List.length_cons] at hsz
        omega
      rw [hv, ih ((n :: rest).flatMap Node.children) hle]
      simp [levelOrderAux]

/-- Collecting matches is filtering the visitation order. -/
theorem nodeSearchAux_false_filter (p : Node → Bool) :
    ∀ f q, nodeSearchAux p false f q
      = (nodeSearchAux (fun _ => true) false f q).filter p := by
  intro f
  induction f with
  | zero => intro q; cases q <;> rfl
  | succ f ih =>
    intro q
    cases q with
    | nil => rfl
    | cons n rest =>
      simp only [nodeSearchAux]
      by_cases hp : p n
      · simp [hp, ih]
      · simp [hp, ih]

/-- Stopping at the first match truncates the full match list. -/
theorem nodeSearchAux_true_take (p : Node → Bool) :
    ∀ f q, nodeSearchAux p true f q = (nodeSearchAux p false f q).take 1 := by
  intro f
  induction f with
  | zero => intro q; cases q <;> rfl
  | succ f ih =>
    intro q
    cases q with
    | nil => rfl
    | cons n rest =>
      simp only [nodeSearchAux]
      by_cases hp : p n
      · simp [hp]
      · simp [hp, ih]

/-- Claim C7: the tree search visits nodes breadth-first — the root
first, then each visited node's direct children in document order,
level by level (`levelOrder`); `findAllNodes` returns every satisfying
node in that order without stopping early (it filters the full
visitation order), `findNode` returns the first satisfying node in
that order (or none), and `findNode` agrees with the head of
`findAllNodes`. -/
theorem C7_theorem (root : Node) (p : Node → Bool) :
    findAllNodes root p = (levelOrder root).filter p ∧
    findNode root p = ((levelOrder root).filter p).head? ∧
    findNode root p = (findAllNodes root p).head? := by
  have h1 : Node.sizeL [root] = Node.size root := by simp [Node.sizeL]
  have hvisit : nodeSearchAux (fun _ => true) false (Node.size root) [root]
      = levelOrder root := by
    have h := visit_eq_levelOrderAux (Node.size root) [root] (le_of_eq h1)
    unfold visit at h
    rw [h1] at h
    exact h
  have hall : findAllNodes root p = (levelOrder root).filter p := by
    unfold findAllNodes nodeSearch
    rw [nodeSearchAux_false_filter, hvisit]
  have hfind : findNode root p = (findAllNodes root p).head? := by
    unfold findNode findAllNodes nodeSearch
    rw [nodeSearchAux_true_take]
    cases nodeSearchAux p false (Node.size root) [root] <;> rfl
  exact ⟨hall, by rw [hfind, hall], hfind⟩

/-! ## C5 — resolvePath with an empty reference: amended statement -/

/-- Splitting never yields the empty list of fields. -/
theorem splitP_ne_nil (p : Char → Bool) (l : Str) : splitP p l ≠ [] := by
  cases l with
  | nil => simp [splitP]
  | cons c t =>
    simp only [splitP]
    cases hc : p c
    · simp only [hc, Bool.false_eq_true, if_false]
      cases splitP p t <;> simp
    · simp [hc]

/-- Joining the fields of a split restores the original string. -/
theorem joinSep_splitSep (sep : Char) (l : Str) :
    joinSep sep (splitSep sep l) = l := by
  unfold splitSep
  induction l with
  | nil => rfl
  | cons c t ih =>
    simp only [splitP]
    by_cases h : (c == sep) = true
    · rw [if_pos h]
      obtain ⟨x, r, hx⟩ : ∃ x r, splitP (fun c => c == sep) t = x :: r := by
        cases hsp : splitP (fun c => c == sep) t with
        | nil => exact absurd hsp (splitP_ne_nil _ _)
        | cons x r => exact ⟨x, r, rfl⟩
      rw [hx]
      rw [hx] at ih
      have hj : joinSep sep ([] :: x :: r) = sep :: joinSep sep (x :: r) := rfl
      rw [hj, ih, eq_of_beq h]
    · rw [if_neg h]
      cases hsp : splitP (fun c => c == sep) t with
      | nil => exact absurd hsp (splitP_ne_nil _ _)
      | cons x r =>
        rw [hsp] at ih
        cases r with
        | nil =>
          have hj1 : joinSep sep [c :: x] = c :: x := rfl
          have hj2 : joinSep sep [x] = x := rfl
          rw [hj2] at ih
          rw [hj1, ih]
        | cons y r2 =>
          have hj1 : joinSep sep ((c :: x) :: y :: r2)
              = (c :: x) ++ sep :: joinSep sep (y :: r2) := rfl
          have hj2 : joinSep sep (x :: y :: r2)
              = x ++ sep :: joinSep sep (y :: r2) := rfl
          rw [hj2] at ih
          rw [hj1]
          simpa using ih

/-- The last element reported by `getLast?` is a member of the list. -/
theorem mem_of_getLastOpt {α : Type} : ∀ (l : List α) (x : α),
    l.getLast? = some x → x ∈ l := by
  intro l
  induction l with
  | nil => intro x h; simp at h
  | cons a t ih =>
    intro x h
    cases t with
    | nil => simp at h; simp [h]
    | cons b t2 =>
      rw [List.getLast?_cons_cons] at h
      exact List.mem_cons_of_mem _ (ih x h)

/-- The segment-normalization fold of `resolvePath` keeps every
segment when none of them is `.` or `..`. -/
theorem foldl_dst_no_dots (src : List Str) (dst0 : List Str)
    (h : ∀ s ∈ src, s ≠ ['.'] ∧ s ≠ ['.', '.']) :
    src.foldl
      (fun dst elem =>
        if elem == ".".toList then dst
        else if elem == "..".toList then dst.dropLast
        else dst ++ [elem])
      dst0 = dst0 ++ src := by
  induction src generalizing dst0 with
  | nil => simp
  | cons x src ih =>
    obtain ⟨hx1, hx2⟩ := h x (List.mem_cons_self _ _)
    simp only [List.foldl_cons]
    rw [if_neg (by simpa using hx1), if_neg (by simpa using hx2)]
    rw [ih (dst0 ++ [x]) (fun s hs => h s (List.mem_cons_of_mem _ hs))]
    simp

/-- Claim C5 (amended): with an empty reference, `resolvePath` returns
the base path segment-normalized; it returns the base unchanged
exactly on already-normal bases — those that start with a single `/`
and contain no `.` or `..` segments (the counterexample `/a/./b` shows
the original unconditional claim fails). -/
theorem C5_theorem (base : Str)
    (h1 : base.head? = some '/')
    (h2 : base.tail.head? ≠ some '/')
    (h3 : ∀ s ∈ splitSep '/' base, s ≠ ['.'] ∧ s ≠ ['.', '.']) :
    resolvePath base [] = base := by
  cases base with
  | nil => simp at h1
  | cons c rest =>
    have hc : c = '/' := by simpa using h1
    subst hc
    have hne : (('/' :: rest : Str) == []) = false := by simp
    simp only [resolvePath, beq_self_eq_true, if_true, hne, Bool.false_eq_true, if_false]
    rw [foldl_dst_no_dots _ _ h3]
    have hlast : ((splitSep '/' ('/' :: rest)).getLast? == some ".".toList
        || (splitSep '/' ('/' :: rest)).getLast? == some "..".toList) = false := by
      cases hl : (splitSep '/' ('/' :: rest)).getLast? with
      | none => rfl
      | some x =>
        obtain ⟨hx1, hx2⟩ := h3 x (mem_of_getLastOpt _ _ hl)
        simp [hx1, hx2]
    rw [hlast]
    simp only [Bool.false_eq_true, if_false, List.nil_append]
    rw [joinSep_splitSep]
    have hdrop : rest.dropWhile (fun c => c == '/') = rest := by
      cases rest with
      | nil => rfl
      | cons d t =>
        have hd : (d == '/') = false := by
          simp only [List.tail_cons, List.head?_cons] at h2
          simpa using fun hdd => h2 (by rw [hdd])
        simp [List.dropWhile, hd]
    simp [List.dropWhile, hdrop]

/-- Claim C5 (witness): the amended theorem applied to the concrete
normal base `/a/b`. -/
theorem C5_witness : resolvePath "/a/b".toList [] = "/a/b".toList :=
  C5_theorem "/a/b".toList rfl (by decide) (by decide)

/-- `strconv.Atoi` on a non-empty all-digit string: the parsed value,
or the clamped maximum with a range error when it overflows `int64`. -/
theorem goAtoi_digits (s : Str) (hne : s ≠ []) (hall : ∀ c ∈ s, Char.isDigit c) :
    goAtoi s
      = if (digitsToNat s : Int) > int64Max then (int64Max, some (.range s))
        else ((digitsToNat s : Int), none) := by
  obtain ⟨d, t, hdt⟩ : ∃ d t, s = d :: t := by
    cases s with
    | nil => exact absurd rfl hne
    | cons d t => exact ⟨d, t, rfl⟩
  have hd0 : Char.isDigit d := hall d (by rw [hdt]; exact List.mem_cons_self _ _)
  have hd1 : (d == '-') = false := by
    cases hdm : d == '-'
    · rfl
    · rw [eq_of_beq hdm] at hd0; exact absurd hd0 (by decide)
  have hd2 : (d == '+') = false := by
    cases hdm : d == '+'
    · rfl
    · rw [eq_of_beq hdm] at hd0; exact absurd hd0 (by decide)
  have hh1 : ((s.head? == some '-') : Bool) = false := by rw [hdt]; exact hd1
  have hh2 : ((s.head? == some '+') : Bool) = false := by rw [hdt]; exact hd2
  have hbeq : ((s == []) : Bool) = false := by rw [hdt]; rfl
  have hallb : s.all Char.isDigit = true := List.all_eq_true.mpr hall
  unfold goAtoi
  simp only [hh1, hh2, Bool.or_self, Bool.false_or, Bool.or_false, if_false,
    Bool.false_eq_true, hbeq, hallb, Bool.not_true]
  have hmin : ¬ ((digitsToNat s : Int) < int64Min) := by
    unfold int64Min
    omega
  by_cases hmax : (digitsToNat s : Int) > int64Max
  · rw [if_pos hmax, if_pos hmax]
  · rw [if_neg hmax, if_neg hmax, if_neg hmin]

/-- Inverting a successful `decLineRe` match: the first capture group
is the (non-empty) leading digit run. -/
theorem decLineMatch_some {line digits name : Str}
    (h : decLineMatch line = some (digits, name)) :
    digits = line.takeWhile Char.isDigit ∧ digits ≠ [] := by
  simp only [decLineMatch] at h
  split at h
  · split at h
    · simp at h
    · next hcond =>
      rw [Option.some.injEq, Prod.mk.injEq] at h
      obtain ⟨h1, h2⟩ := h
      refine ⟨h1.symm, ?_⟩
      rw [← h1]
      intro hemp
      exact hcond (by simp [hemp])
  · simp at h

/-- Claim C9 (amended): a processed line on which the `decLineRe`
pattern fails yields the MalformedLine error carrying that whole line
(so a deck list whose offending line is `Swamp` makes NewDeck fail
that way); but a line that matches the pattern while its digit run
overflows the 64-bit integer range instead yields the Atoi range
error, which carries only the digit run, not the line. -/
theorem C9_theorem (badLine matchedLine digits name : Str)
    (resolve : Str → Option Card)
    (hnm : decLineMatch badLine = none)
    (hsm : decLineMatch matchedLine = some (digits, name))
    (hbig : int64Max < (digitsToNat digits : Int)) :
    parseCardLine badLine = .error (.malformedLine badLine) ∧
    parseCardLine matchedLine = .error (.atoiErr (.range digits)) ∧
    NewDeck resolve "Swamp".toList = .error (.malformedLine "Swamp".toList) := by
  obtain ⟨hdig, hne⟩ := decLineMatch_some hsm
  have hall : ∀ c ∈ digits, Char.isDigit c := by
    intro c hc
    rw [hdig] at hc
    exact List.mem_takeWhile_imp hc
  have hgo : goAtoi digits = (int64Max, some (.range digits)) := by
    rw [goAtoi_digits digits hne hall, if_pos hbig]
  refine ⟨by simp [parseCardLine, hnm], ?_, rfl⟩
  simp [parseCardLine, hsm, hgo]

/-- Claim C9 (witness): the amended theorem applied to the concrete
lines `Swamp` (no leading count) and `99999999999999999999 Swamp`
(overflowing count). -/
theorem C9_witness :
    parseCardLine "Swamp".toList = .error (.malformedLine "Swamp".toList) ∧
    parseCardLine "99999999999999999999 Swamp".toList
      = .error (.atoiErr (.range "99999999999999999999".toList)) ∧
    NewDeck resolveForest "Swamp".toList
      = .error (.malformedLine "Swamp".toList) :=
  C9_theorem "Swamp".toList "99999999999999999999 Swamp".toList
    "99999999999999999999".toList "Swamp".toList resolveForest
    rfl rfl (by decide)

/-- The per-line guard used by the amended C3 statement: the line is
blank, fails to parse, or carries a count of at least one. -/
def lineCountOK (l : Str) : Bool :=
  match procLine l with
  | none => true
  | some (_, c) =>
    match parseCardLine c with
    | .ok (n, _) => decide (1 ≤ n)
    | .error _ => true

/-- `m[k] += n` keeps every stored count at least one when the map
already satisfies that and the increment is at least one. -/
theorem addCount_pos {m : Counts} {k : Str} {n : Int}
    (h : ∀ p ∈ m, 1 ≤ p.2) (hn : 1 ≤ n) :
    ∀ p ∈ addCount m k n, 1 ≤ p.2 := by
  induction m with
  | nil =>
    intro p hp
    simp only [addCount, List.mem_singleton] at hp
    rw [hp]
    exact hn
  | cons q t ih =>
    intro p hp
    simp only [addCount] at hp
    by_cases hk : q.1 == k
    · rw [if_pos hk] at hp
      rcases List.mem_cons.mp hp with h1 | h1
      · rw [h1]
        have := h q (List.mem_cons_self _ _)
        simp only []
        omega
      · exact h p (List.mem_cons_of_mem _ h1)
    · rw [if_neg hk] at hp
      rcases List.mem_cons.mp hp with h1 | h1
      · rw [h1]; exact h q (List.mem_cons_self _ _)
      · exact ih (fun r hr => h r (List.mem_cons_of_mem _ hr)) p h1

/-- Same statement for the card-keyed map. -/
theorem addCardCount_pos {m : CardCounts} {c : Card} {n : Int}
    (h : ∀ p ∈ m, 1 ≤ p.2) (hn : 1 ≤ n) :
    ∀ p ∈ addCardCount m c n, 1 ≤ p.2 := by
  induction m with
  | nil =>
    intro p hp
    simp only [addCardCount, List.mem_singleton] at hp
    rw [hp]
    exact hn
  | cons q t ih =>
    intro p hp
    simp only [addCardCount] at hp
    by_cases hk : q.1 == c
    · rw [if_pos hk] at hp
      rcases List.mem_cons.mp hp with h1 | h1
      · rw [h1]
        have := h q (List.mem_cons_self _ _)
        simp only []
        omega
      · exact h p (List.mem_cons_of_mem _ h1)
    · rw [if_neg hk] at hp
      rcases List.mem_cons.mp hp with h1 | h1
      · rw [h1]; exact h q (List.mem_cons_self _ _)
      · exact ih (fun r hr => h r (List.mem_cons_of_mem _ hr)) p h1

/-- The scanner loop keeps all accumulated counts at least one when
every line passes the `lineCountOK` guard. -/
theorem parseLinesAux_pos :
    ∀ (lines : List Str) (m s m2 s2 : Counts),
      (∀ l ∈ lines, lineCountOK l = true) →
      (∀ p ∈ m, 1 ≤ p.2) → (∀ p ∈ s, 1 ≤ p.2) →
      parseLinesAux lines m s = .ok (m2, s2) →
      (∀ p ∈ m2, 1 ≤ p.2) ∧ (∀ p ∈ s2, 1 ≤ p.2) := by
  intro lines
  induction lines with
  | nil =>
    intro m s m2 s2 _ hm hs hok
    simp only [parseLinesAux, Except.ok.injEq, Prod.mk.injEq] at hok
    obtain ⟨h1, h2⟩ := hok
    exact ⟨h1 ▸ hm, h2 ▸ hs⟩
  | cons l rest ih =>
    intro m s m2 s2 hlines hm hs hok
    have hrest : ∀ l2 ∈ rest, lineCountOK l2 = true :=
      fun l2 hl2 => hlines l2 (List.mem_cons_of_mem _ hl2)
    have hl : lineCountOK l = true := hlines l (List.mem_cons_self _ _)
    simp only [parseLinesAux] at hok
    split at hok
    · exact ih m s m2 s2 hrest hm hs hok
    · rename_i isSB2 c2 hpl
      split at hok
      · simp at hok
      · rename_i n name hpc
        have hn : 1 ≤ n := by
          simp only [lineCountOK, hpl, hpc] at hl
          exact of_decide_eq_true hl
        split at hok
        · exact ih m (addCount s name n) m2 s2 hrest hm (addCount_pos hs hn) hok
        · exact ih (addCount m name n) s m2 s2 hrest (addCount_pos hm hn) hs hok

/-- Resolution and merging keep all deck counts at least one when the
parsed counts are. -/
theorem assemble_pos (resolve : Str → Option Card) :
    ∀ (counts : Counts) (acc : CardCounts),
      (∀ p ∈ counts, 1 ≤ p.2) → (∀ q ∈ acc, 1 ≤ q.2) →
      ∀ q ∈ counts.foldl
          (fun acc p =>
            match resolve p.1 with
            | none => acc
            | some c => addCardCount acc c p.2)
          acc, 1 ≤ q.2 := by
  intro counts
  induction counts with
  | nil => intro acc _ hacc q hq; exact hacc q hq
  | cons p rest ih =>
    intro acc hcounts hacc q hq
    simp only [List.foldl_cons] at hq
    have hp : 1 ≤ p.2 := hcounts p (List.mem_cons_self _ _)
    have hrest : ∀ r ∈ rest, 1 ≤ r.2 :=
      fun r hr => hcounts r (List.mem_cons_of_mem _ hr)
    cases hres : resolve p.1 with
    | none =>
      rw [hres] at hq
      exact ih acc hrest hacc q hq
    | some c =>
      rw [hres] at hq
      exact ih (addCardCount acc c p.2) hrest (addCardCount_pos hacc hp) q hq

/-- Claim C3 (amended): provided every line of the text carries a
count of at least one (the regular expression also admits `0`, see the
counterexample), every count stored in the parsed main and sideboard
maps — and in the Main and Sideboard maps of the assembled Deck, for
any resolver — is at least 1; and repeated lines for the same name in
the same section accumulate additively: `2 Forest` and `3 Forest`
yield one entry with count 5. -/
theorem C3_theorem (text : Str) (m s : Counts) (resolve : Str → Option Card)
    (hok : parseDec text = .ok (m, s))
    (hpos : ∀ l ∈ splitSep '\n' text, lineCountOK l = true) :
    (∀ p ∈ m, 1 ≤ p.2) ∧ (∀ p ∈ s, 1 ≤ p.2) ∧
    (∀ p ∈ assemble resolve m, 1 ≤ p.2) ∧
    (∀ p ∈ assemble resolve s, 1 ≤ p.2) ∧
    parseDec "2 Forest\n3 Forest".toList = .ok ([("Forest".toList, 5)], []) := by
  obtain ⟨hm, hs⟩ := parseLinesAux_pos (splitSep '\n' text) [] [] m s hpos
    (by simp) (by simp) hok
  exact ⟨hm, hs, assemble_pos resolve m [] hm (by simp),
    assemble_pos resolve s [] hs (by simp), rfl⟩

/-- Claim C3 (witness): the amended theorem applied to the accumulation
example `2 Forest` + `3 Forest` with the concrete Forest resolver. -/
theorem C3_witness :
    (∀ p ∈ [("Forest".toList, (5 : Int))], 1 ≤ p.2) ∧
    (∀ p ∈ ([] : Counts), 1 ≤ p.2) ∧
    (∀ p ∈ assemble resolveForest [("Forest".toList, (5 : Int))], 1 ≤ p.2) ∧
    (∀ p ∈ assemble resolveForest ([] : Counts), 1 ≤ p.2) ∧
    parseDec "2 Forest\n3 Forest".toList = .ok ([("Forest".toList, 5)], []) :=
  C3_theorem "2 Forest\n3 Forest".toList [("Forest".toList, 5)] [] resolveForest
    rfl (by decide)

/-! ## C1 — round-tripping a rendered deck -/

/-- The ten decimal digit characters. -/
def digitList : Str := ['0', '1', '2', '3', '4', '5', '6', '7', '8', '9']

/-- `digitChr` lands in the digit alphabet. -/
theorem digitChr_mem (n : Nat) : digitChr n ∈ digitList := by
  unfold digitChr
  split <;> decide

/-- Every character of a decimal rendering is a digit character. -/
theorem natDecAux_mem : ∀ fuel n, ∀ c ∈ natDecAux fuel n, c ∈ digitList := by
  intro fuel
  induction fuel with
  | zero => intro n c hc; simp [natDecAux] at hc
  | succ fuel ih =>
    intro n c hc
    simp only [natDecAux] at hc
    by_cases h : n < 10
    · rw [if_pos h] at hc
      simp only [List.mem_singleton] at hc
      rw [hc]; exact digitChr_mem n
    · rw [if_neg h] at hc
      rcases List.mem_append.mp hc with h1 | h1
      · exact ih _ c h1
      · simp only [List.mem_singleton] at h1
        rw [h1]; exact digitChr_mem _

theorem digitList_isDigit {c : Char} (h : c ∈ digitList) : Char.isDigit c = true := by
  simp only [digitList, List.mem_cons, List.not_mem_nil, or_false] at h
  rcases h with rfl | rfl | rfl | rfl | rfl | rfl | rfl | rfl | rfl | rfl <;> decide

theorem digitList_not_space {c : Char} (h : c ∈ digitList) : isSpace c = false := by
  simp only [digitList, List.mem_cons, List.not_mem_nil, or_false] at h
  rcases h with rfl | rfl | rfl | rfl | rfl | rfl | rfl | rfl | rfl | rfl <;> decide

theorem digitList_ne_newline {c : Char} (h : c ∈ digitList) : c ≠ '\n' := by
  simp only [digitList, List.mem_cons, List.not_mem_nil, or_false] at h
  rcases h with rfl | rfl | rfl | rfl | rfl | rfl | rfl | rfl | rfl | rfl <;> decide

theorem digitList_ne_S {c : Char} (h : c ∈ digitList) : (c == 'S') = false := by
  simp only [digitList, List.mem_cons, List.not_mem_nil, or_false] at h
  rcases h with rfl | rfl | rfl | rfl | rfl | rfl | rfl | rfl | rfl | rfl <;> decide

/-- Decimal renderings are never empty. -/
theorem natDec_ne_nil (n : Nat) : natDec n ≠ [] := by
  unfold natDec natDecAux
  by_cases h : n < 10
  · simp [h]
  · simp [h]

theorem natDec_mem {n : Nat} {c : Char} (h : c ∈ natDec n) : c ∈ digitList :=
  natDecAux_mem _ _ c h

theorem digitVal_digitChr {n : Nat} (h : n < 10) : digitVal (digitChr n) = n := by
  interval_cases n <;> decide

theorem digitsToNat_concat (a : Str) (d : Char) :
    digitsToNat (a ++ [d]) = digitsToNat a * 10 + digitVal d := by
  unfold digitsToNat
  rw [List.foldl_append]
  rfl

/-- Reading back a decimal rendering recovers the value. -/
theorem digitsToNat_natDecAux : ∀ fuel n, n < fuel → digitsToNat (natDecAux fuel n) = n := by
  intro fuel
  induction fuel with
  | zero => intro n h; omega
  | succ fuel ih =>
    intro n h
    simp only [natDecAux]
    by_cases h10 : n < 10
    · rw [if_pos h10]
      show digitsToNat ([] ++ [digitChr n]) = n
      rw [digitsToNat_concat, digitVal_digitChr h10]
      simp [digitsToNat]
    · rw [if_neg h10, digitsToNat_concat]
      have hlt : n / 10 < fuel := by
        have := Nat.div_lt_self (by omega : 0 < n) (by omega : 1 < 10)
        omega
      rw [ih (n / 10) hlt, digitVal_digitChr (Nat.mod_lt n (by omega))]
      omega

theorem digitsToNat_natDec (n : Nat) : digitsToNat (natDec n) = n :=
  digitsToNat_natDecAux _ _ (by omega)

theorem intDec_nonneg {n : Int} (h : 0 ≤ n) : intDec n = natDec n.natAbs := by
  unfold intDec
  rw [if_neg (by omega)]

/-- The struct rendering pulled apart as `front ++ [closing brace]`. -/
theorem goFormatCard_eq (c : Card) :
    goFormatCard c
      = ('\x7b' :: (badVerbInt c.MultiverseID ++ ' ' :: c.Name ++ ' ' :: c.ManaCost
          ++ ' ' :: badVerbInt c.ConvertedManaCost ++ ' ' :: c.CardType
          ++ ' ' :: c.Text ++ ' ' :: c.Rarity)) ++ ['\x7d'] := by
  unfold goFormatCard
  simp [List.append_assoc]

theorem goFormatCard_getLast (c : Card) :
    (goFormatCard c).getLast? = some '\x7d' := by
  rw [goFormatCard_eq]
  exact List.getLast?_concat ..

theorem goFormatCard_head (c : Card) : (goFormatCard c).head? = some '\x7b' := by
  unfold goFormatCard
  rfl

theorem goFormatCard_ne_nil (c : Card) : goFormatCard c ≠ [] := by
  unfold goFormatCard
  simp

/-- Dropping leading whitespace does nothing when the head is not
whitespace. -/
theorem dropWhile_isSpace_eq_self {l : Str}
    (h : ∀ c, l.head? = some c → isSpace c = false) :
    l.dropWhile isSpace = l := by
  cases l with
  | nil => rfl
  | cons c t => simp [List.dropWhile_cons, h c rfl]

/-- Trimming does nothing when neither end is whitespace. -/
theorem trimSpace_eq_self {l : Str}
    (h1 : ∀ c, l.head? = some c → isSpace c = false)
    (h2 : ∀ c, l.getLast? = some c → isSpace c = false) :
    trimSpace l = l := by
  unfold trimSpace
  rw [dropWhile_isSpace_eq_self h1]
  rw [dropWhile_isSpace_eq_self (fun c hc => h2 c (by rwa [List.head?_reverse] at hc))]
  exact List.reverse_reverse l

/-- `takeWhile` passes over a prefix it fully accepts. -/
theorem takeWhile_append_all {p : Char → Bool} {a b : Str}
    (h : ∀ c ∈ a, p c = true) :
    (a ++ b).takeWhile p = a ++ b.takeWhile p := by
  induction a with
  | nil => simp
  | cons c t ih =>
    simp only [List.cons_append, List.takeWhile_cons, h c (List.mem_cons_self _ _), if_true,
      ih fun d hd => h d (List.mem_cons_of_mem _ hd)]

theorem digitList_ne_S2 {c : Char} (h : c ∈ digitList) : c ≠ 'S' := by
  simp only [digitList, List.mem_cons, List.not_mem_nil, or_false] at h
  rcases h with rfl | rfl | rfl | rfl | rfl | rfl | rfl | rfl | rfl | rfl <;> decide

/-- The last character of a rendered entry line body is the closing
brace of the struct rendering. -/
theorem lineBody_getLast (c : Card) (n : Int) :
    (intDec n ++ ' ' :: goFormatCard c).getLast? = some '\x7d' := by
  rw [List.getLast?_append_cons]
  have h9 : ([' '] ++ goFormatCard c).getLast? = (goFormatCard c).getLast? :=
    List.getLast?_append_of_ne_nil _ (goFormatCard_ne_nil c)
  simpa [goFormatCard_getLast c] using h9

/-- A rendered entry line body (`<count> <struct rendering>`) passes
untouched through the scanner's trimming and SB-prefix handling. -/
theorem procLine_lineBody (c : Card) (n : Int) (hn : 0 ≤ n) :
    procLine (intDec n ++ ' ' :: goFormatCard c)
      = some (false, intDec n ++ ' ' :: goFormatCard c) := by
  obtain ⟨d, t, hdt⟩ : ∃ d t, natDec n.natAbs = d :: t := by
    cases hnd : natDec n.natAbs with
    | nil => exact absurd hnd (natDec_ne_nil _)
    | cons d t => exact ⟨d, t, rfl⟩
  have hd : d ∈ digitList := natDec_mem (by rw [hdt]; exact List.mem_cons_self _ _)
  have hline : intDec n ++ ' ' :: goFormatCard c
      = d :: (t ++ ' ' :: goFormatCard c) := by
    rw [intDec_nonneg hn, hdt]
    rfl
  have htrim : trimSpace (intDec n ++ ' ' :: goFormatCard c)
      = intDec n ++ ' ' :: goFormatCard c := by
    refine trimSpace_eq_self (fun e he => ?_) (fun e he => ?_)
    · rw [hline] at he
      simp only [List.head?_cons, Option.some.injEq] at he
      rw [← he]
      exact digitList_not_space hd
    · rw [lineBody_getLast] at he
      simp only [Option.some.injEq] at he
      rw [← he]
      decide
  have hnil : ((intDec n ++ ' ' :: goFormatCard c : Str) == []) = false := by
    rw [hline]
    rfl
  have htake : (((intDec n ++ ' ' :: goFormatCard c).take 3 : Str) == "SB:".toList) = false := by
    refine beq_eq_false_iff_ne.mpr (fun heq => ?_)
    rw [hline] at heq
    have h3 : (3 : Nat) = 2 + 1 := rfl
    rw [h3, List.take_succ_cons] at heq
    have : d = 'S' := (List.cons.injEq ..).mp heq |>.1
    exact digitList_ne_S2 hd this
  simp only [procLine, htrim, hnil, htake, Bool.and_false, Bool.false_eq_true, if_false]

/-- The `decLineRe` match of a rendered entry line body: the two
capture groups are the count's decimal rendering and the struct
rendering. -/
theorem decLineMatch_lineBody (c : Card) (n : Int) (hn : 0 ≤ n)
    (hnl : ('\n' : Char) ∉ goFormatCard c) :
    decLineMatch (intDec n ++ ' ' :: goFormatCard c)
      = some (intDec n, goFormatCard c) := by
  have hall : ∀ e ∈ intDec n, Char.isDigit e = true := by
    intro e he
    rw [intDec_nonneg hn] at he
    exact digitList_isDigit (natDec_mem he)
  have htw : (intDec n ++ ' ' :: goFormatCard c).takeWhile Char.isDigit = intDec n := by
    rw [takeWhile_append_all hall]
    simp [List.takeWhile_cons]
  have hnnil : ((intDec n : Str) == []) = false := by
    refine beq_eq_false_iff_ne.mpr ?_
    rw [intDec_nonneg hn]
    exact natDec_ne_nil _
  have hgnil : ((goFormatCard c : Str) == []) = false :=
    beq_eq_false_iff_ne.mpr (goFormatCard_ne_nil c)
  have hcont : (goFormatCard c).contains '\n' = false := by
    simpa using hnl
  simp only [decLineMatch, htw, List.drop_left, hnnil, hgnil, hcont, Bool.or_self,
    Bool.or_false, Bool.false_or, Bool.false_eq_true, if_false]

/-- Parsing a rendered entry line recovers the count and the struct
rendering, provided the count is a representable non-negative value. -/
theorem parseCardLine_lineBody (c : Card) (n : Int) (hn : 0 ≤ n) (hle : n ≤ int64Max)
    (hnl : ('\n' : Char) ∉ goFormatCard c) :
    parseCardLine (intDec n ++ ' ' :: goFormatCard c) = .ok (n, goFormatCard c) := by
  have hgo : goAtoi (intDec n) = (n, none) := by
    rw [intDec_nonneg hn,
      goAtoi_digits _ (natDec_ne_nil _) (fun e he => digitList_isDigit (natDec_mem he)),
      digitsToNat_natDec]
    rw [if_neg (by rw [Int.natAbs_of_nonneg hn]; omega)]
    rw [Int.natAbs_of_nonneg hn]
  simp only [parseCardLine, decLineMatch_lineBody c n hn hnl, hgo]

/-- A rendered entry line contains no newline before its terminator. -/
theorem lineBody_no_newline (c : Card) (n : Int) (hn : 0 ≤ n)
    (hnl : ('\n' : Char) ∉ goFormatCard c) :
    ('\n' : Char) ∉ (intDec n ++ ' ' :: goFormatCard c) := by
  intro hmem
  rcases List.mem_append.mp hmem with h | h
  · rw [intDec_nonneg hn] at h
    exact digitList_ne_newline (natDec_mem h) rfl
  · rcases List.mem_cons.mp h with h | h
    · exact absurd h (by decide)
    · exact hnl h

/-- Splitting at the separator after a separator-free prefix peels off
exactly that prefix. -/
theorem splitSep_append (sep : Char) (l rest : Str) (h : sep ∉ l) :
    splitSep sep (l ++ sep :: rest) = l :: splitSep sep rest := by
  induction l with
  | nil =>
    show splitP _ (sep :: rest) = [] :: splitSep sep rest
    simp [splitP, splitSep]
  | cons c t ih =>
    have hc : (c == sep) = false :=
      beq_eq_false_iff_ne.mpr fun he => h (by rw [← he]; exact List.mem_cons_self _ _)
    have ht : sep ∉ t := fun hm => h (List.mem_cons_of_mem _ hm)
    show splitP _ ((c :: t) ++ sep :: rest) = (c :: t) :: splitSep sep rest
    simp only [List.cons_append, splitP, hc, Bool.false_eq_true, if_false, List.append_eq]
    have ihp : splitP (fun x => x == sep) (t ++ sep :: rest) = t :: splitSep sep rest := ih ht
    rw [ihp]

/-- The lines of `Deck.String`, one rendered entry per element. -/
def renderLines : CardCounts → Str
  | [] => []
  | p :: t => entryLine p.1 p.2 ++ renderLines t

/-- The render buffer fold is the concatenation of the entry lines. -/
theorem foldl_render (L : CardCounts) :
    ∀ buf0 : Str, L.foldl (fun buf p => buf ++ entryLine p.1 p.2) buf0
      = buf0 ++ renderLines L := by
  induction L with
  | nil => intro b; simp [renderLines]
  | cons p t ih =>
    intro b
    simp only [List.foldl_cons, renderLines, ih, List.append_assoc]

/-- `m[k] += n` appends a fresh key at the end of the map. -/
theorem addCount_fresh {m : Counts} {k : Str} {n : Int}
    (h : ∀ q ∈ m, q.1 ≠ k) : addCount m k n = m ++ [(k, n)] := by
  induction m with
  | nil => rfl
  | cons q t ih =>
    have hq : (q.1 == k) = false := beq_eq_false_iff_ne.mpr (h q (List.mem_cons_self _ _))
    simp only [addCount, hq, Bool.false_eq_true, if_false, List.cons_append,
      ih fun r hr => h r (List.mem_cons_of_mem _ hr)]

/-- The scanner, fed the rendered entry lines followed by any tail,
accumulates exactly the struct-rendering-keyed counts and goes on with
the tail. -/
theorem parseLinesAux_render :
    ∀ (L : CardCounts) (tail : Str) (m s : Counts),
      (∀ p ∈ L, ('\n' : Char) ∉ goFormatCard p.1) →
      (∀ p ∈ L, 0 ≤ p.2) →
      (∀ p ∈ L, p.2 ≤ int64Max) →
      (∀ p ∈ L, ∀ q ∈ m, q.1 ≠ goFormatCard p.1) →
      ((L.map fun p => goFormatCard p.1).Nodup) →
      parseLinesAux (splitSep '\n' (renderLines L ++ tail)) m s
        = parseLinesAux (splitSep '\n' tail)
            (m ++ L.map fun p => (goFormatCard p.1, p.2)) s := by
  intro L
  induction L with
  | nil => intro tail m s _ _ _ _ _; simp [renderLines]
  | cons p t ih =>
    intro tail m s hnl hpos hle hfresh hnd
    have hpnl : ('\n' : Char) ∉ goFormatCard p.1 := hnl p (List.mem_cons_self _ _)
    have hppos : 0 ≤ p.2 := hpos p (List.mem_cons_self _ _)
    have hple : p.2 ≤ int64Max := hle p (List.mem_cons_self _ _)
    have hmc : (List.map (fun p => goFormatCard p.1) (p :: t)).Nodup := hnd
    rw [List.map_cons, List.nodup_cons] at hmc
    have hnotin : goFormatCard p.1 ∉ t.map fun p => goFormatCard p.1 := hmc.1
    have hndt : (t.map fun p => goFormatCard p.1).Nodup := hmc.2
    have htext : renderLines (p :: t) ++ tail
        = (intDec p.2 ++ ' ' :: goFormatCard p.1) ++ '\n' :: (renderLines t ++ tail) := by
      show (entryLine p.1 p.2 ++ renderLines t) ++ tail = _
      unfold entryLine
      simp [List.append_assoc]
    rw [htext, splitSep_append '\n' _ _ (lineBody_no_newline p.1 p.2 hppos hpnl)]
    simp only [parseLinesAux, procLine_lineBody p.1 p.2 hppos,
      parseCardLine_lineBody p.1 p.2 hppos hple hpnl, Bool.false_eq_true, if_false]
    rw [addCount_fresh fun q hq => hfresh p (List.mem_cons_self _ _) q hq]
    rw [ih tail (m ++ [(goFormatCard p.1, p.2)]) s
      (fun r hr => hnl r (List.mem_cons_of_mem _ hr))
      (fun r hr => hpos r (List.mem_cons_of_mem _ hr))
      (fun r hr => hle r (List.mem_cons_of_mem _ hr))
      ?hfresh2 ?hnd3]
    · simp
    case hfresh2 =>
      intro r hr q hq
      rcases List.mem_append.mp hq with h | h
      · exact hfresh r (List.mem_cons_of_mem _ hr) q h
      · have hq1 : q.1 = goFormatCard p.1 := by
          simp only [List.mem_singleton] at h
          rw [h]
        rw [hq1]
        intro heq
        have hmem : goFormatCard r.1 ∈ t.map fun p => goFormatCard p.1 :=
          List.mem_map_of_mem _ hr
        rw [← heq] at hmem
        exact hnotin hmem
    case hnd3 => exact hndt

/-- Claim C1 (amended): rendering an assembled deck with `String` and
re-parsing does not restore the original name-to-count mapping.  When
the Sideboard is non-empty, re-parsing fails with a MalformedLine error
on the `Sideboard:` header line.  When the Sideboard is empty (and the
Main counts are representable non-negative values whose struct
renderings are newline-free and pairwise distinct), the re-parse
succeeds but yields the counts keyed by the Go default struct rendering
of each card — not by its Name. -/
theorem C1_theorem (Main Sideboard : CardCounts)
    (hnl : ∀ p ∈ Main, ('\n' : Char) ∉ goFormatCard p.1)
    (hpos : ∀ p ∈ Main, 0 ≤ p.2)
    (hle : ∀ p ∈ Main, p.2 ≤ int64Max)
    (hnd : (Main.map fun p => goFormatCard p.1).Nodup) :
    (Sideboard = [] →
      parseDec (Deck.render ⟨Main, Sideboard⟩)
        = .ok (Main.map fun p => (goFormatCard p.1, p.2), [])) ∧
    (Sideboard ≠ [] →
      parseDec (Deck.render ⟨Main, Sideboard⟩)
        = .error (.malformedLine "Sideboard:".toList)) := by
  constructor
  · intro hside
    subst hside
    have hrender : Deck.render ⟨Main, []⟩ = renderLines Main ++ [] := by
      unfold Deck.render
      simp [foldl_render]
    rw [hrender]
    unfold parseDec
    rw [parseLinesAux_render Main [] [] [] hnl hpos hle (by simp) hnd]
    simp only [List.nil_append]
    rfl
  · intro hside
    have hlen : Sideboard.length > 0 := List.length_pos.mpr hside
    have hrender : Deck.render ⟨Main, Sideboard⟩
        = renderLines Main
            ++ ('\n' :: ("Sideboard:".toList ++ '\n' :: renderLines Sideboard)) := by
      unfold Deck.render
      rw [if_pos hlen, foldl_render, foldl_render]
      simp [List.append_assoc]
    rw [hrender]
    unfold parseDec
    rw [parseLinesAux_render Main _ [] [] hnl hpos hle (by simp) hnd]
    have hsplit1 : splitSep '\n' ('\n' :: ("Sideboard:".toList ++ '\n' :: renderLines Sideboard))
        = [] :: splitSep '\n' ("Sideboard:".toList ++ '\n' :: renderLines Sideboard) := by
      simp [splitSep, splitP]
    rw [hsplit1, splitSep_append '\n' _ _ (by decide)]
    rfl

/-- Claim C1 (counterexample): for the valid one-line deck list
`1 Forest` (with a resolver that knows Forest), rendering and
re-parsing loses the mapping: the re-parsed deck resolves no cards, so
its name-to-count mapping is empty rather than `Forest ↦ 1`. -/
theorem C1_counterexample :
    NewDeck resolveForest "1 Forest".toList = .ok ⟨[(forestCard, 1)], []⟩ ∧
    NewDeck resolveForest (Deck.render ⟨[(forestCard, 1)], []⟩) = .ok ⟨[], []⟩ ∧
    nameCounts ([] : CardCounts) ≠ nameCounts [(forestCard, 1)] :=
  ⟨rfl, rfl, by decide⟩

/-- Claim C1 (witness): the amended theorem applied to the singleton
assembled deck `Forest ↦ 1` — the re-parsed key is the struct
rendering of the Forest card. -/
theorem C1_witness :
    parseDec (Deck.render ⟨[(forestCard, 1)], []⟩)
      = .ok ([(goFormatCard forestCard, 1)], []) :=
  (C1_theorem [(forestCard, 1)] [] (by decide) (by decide) (by decide) (by decide)).1 rfl

end Mtg
